import Mathlib

/- Verification of the fsm-go finite-state machine library.

   The Go type State = func() (State, error) is modeled by its denotation:
   a handler carries a display name (the source derives it reflectively from
   the function symbol; the symbol-string processing itself is modeled
   separately by getFunctionNameSym) and, when invoked, yields an optional
   next handler together with an optional error.  A handler value is thus a
   finite chain: constructor last models a handler returning a nil next
   handler, constructor cont a handler returning a non-nil next handler.

   Go maps are modeled as association lists whose enumeration order is the
   insertion order (one admissible enumeration of the unordered Go map).
   The output file is modeled as a Sink: an environment value saying which
   write, if any, fails and with which error.  Machine step counters
   (int64 in Go) are modeled as Int; no claim exercises overflow. -/

/- ===== Data model ===== -/

abbrev Err := String

inductive Handler : Type where
  | last (name : String) (errv : Option Err) : Handler
  | cont (name : String) (errv : Option Err) (next : Handler) : Handler

def Handler.name : Handler → String
  | .last nm _ => nm
  | .cont nm _ _ => nm

/-- Invoking a handler returns the pair (next State, error), exactly the Go
call currentState(). -/
def Handler.call : Handler → Option Handler × Option Err
  | .last _ e => (none, e)
  | .cont _ e nx => (some nx, e)

/-- Model of an output file (os.File): the environment decides which write,
if any, fails, and the error value the failing write reports. -/
structure Sink where
  failIdx : Option Nat
  errVal : Err

abbrev AdjMap := List (String × List (String × List Int))

structure FiniteStateMachine where
  start : Option Handler
  step : Int
  dotFile : Option Sink
  adjacencyMap : AdjMap

/- ===== Constants from the source ===== -/

def startID : String := "start"

def endID : String := "end"

def dotFileFooter : String := "\x7d"

def dotFileName : String := "dot_graph"

def dotFileExtension : String := "gv"

def stepFontSize : Nat := 10

def dotFileHeader : String :=
  "\nstrict digraph stategraph \x7b\n\tstart [shape=\"circle\", color=\"green\", style=\"filled\"]\n\tend [shape=\"circle\", color=\"red\", style=\"filled\"]\n"

/- ===== Association-list operations modeling Go map read and write ===== -/

def lookupA {α : Type} (k : String) : List (String × α) → Option α
  | [] => none
  | kv :: rest => if kv.1 = k then some kv.2 else lookupA k rest

def setA {α : Type} (k : String) (v : α) : List (String × α) → List (String × α)
  | [] => [(k, v)]
  | kv :: rest => if kv.1 = k then (k, v) :: rest else kv :: setA k v rest

/- ===== Machine operations ===== -/

/-- NewMachine initializes a machine: empty history, step counter 0, no dot
file handle (tracing disabled). -/
def NewMachine : FiniteStateMachine :=
  { start := none, step := 0, dotFile := none, adjacencyMap := [] }

/-- A machine with tracing enabled from construction, as produced by calling
LogStateTransitionGraph successfully on a fresh machine. -/
def freshTraced (sink : Sink) : FiniteStateMachine :=
  { NewMachine with dotFile := some sink }

def FiniteStateMachine.isTracing (fsm : FiniteStateMachine) : Bool :=
  fsm.dotFile.isSome

/-- Go getFunctionName applied to a State value: nil maps to endID, otherwise
the display name of the handler. -/
def getFunctionName : Option Handler → String
  | none => endID
  | some h => h.name

/-- Model of recordStateTransition: no-op unless tracing; otherwise increment
the step counter, create the vertex and edge entries when absent, and append
the new step count to the edge list. -/
def recordStateTransition (fsm : FiniteStateMachine) (curr next : String) :
    FiniteStateMachine :=
  if fsm.isTracing then
    let step := fsm.step + 1
    let edgeMap := (lookupA curr fsm.adjacencyMap).getD []
    let edgeSteps := (lookupA next edgeMap).getD []
    let edgeMap2 := setA next (edgeSteps ++ [step]) edgeMap
    { fsm with step := step, adjacencyMap := setA curr edgeMap2 fsm.adjacencyMap }
  else fsm

/-- Loop body of run: invoke the current handler, record the transition from
it to the returned next handler (endID when nil), stop when an error was
returned or the next handler is nil.  Structural recursion on the handler
chain mirrors the Go for-loop. -/
def runLoop : Handler → FiniteStateMachine → FiniteStateMachine × Option Err
  | .last nm e, fsm =>
      (recordStateTransition fsm nm (getFunctionName none), e)
  | .cont nm e nx, fsm =>
      let fsm2 := recordStateTransition fsm nm (getFunctionName (some nx))
      match e with
      | some er => (fsm2, some er)
      | none => runLoop nx fsm2

/-- Model of run: record the synthetic start transition, then iterate.  When
fsm.start is nil the Go loop body never executes and the error stays nil. -/
def run (fsm : FiniteStateMachine) : FiniteStateMachine × Option Err :=
  let fsm1 := recordStateTransition fsm startID (getFunctionName fsm.start)
  match fsm.start with
  | none => (fsm1, none)
  | some h => runLoop h fsm1

def errStartNotNil : Err := "start must not be nil"

/-- Model of strings.TrimSuffix: drop the suffix when the string ends with
it, otherwise return the string unchanged. -/
def trimSuffixStr (s suf : String) : String :=
  if suf.data.isSuffixOf s.data then
    String.mk (s.data.take (s.data.length - suf.data.length))
  else s

/-- Model of joinInt: append each step in decimal followed by the delimiter
into a buffer, then trim the trailing delimiter. -/
def joinInt (steps : List Int) (delimiter : String) : String :=
  let stepBuf := steps.foldl (fun acc step => acc ++ (toString step ++ delimiter)) ""
  trimSuffixStr stepBuf delimiter

/-- Model of the Sprintf of edgeFmtStr with a vertex, an edge, a step label
and stepFontSize. -/
def edgeFmtLine (vertex edge stepLabel : String) : String :=
  "\t" ++ vertex ++ " -> " ++ edge ++ " [label=\" " ++ stepLabel ++
    "\",fontsize=" ++ toString stepFontSize ++ "]\n"

/-- The sequence of strings adjacencyMapToDotGraph writes to the dot file:
the header, one line per recorded edge with its joined step label, and the
footer. -/
def dotGraphWrites (m : AdjMap) : List String :=
  [dotFileHeader]
    ++ m.flatMap (fun ve => ve.2.map (fun es => edgeFmtLine ve.1 es.1 (joinInt es.2 ",")))
    ++ [dotFileFooter]

/-- Error result of adjacencyMapToDotGraph against a sink: the run of writes
aborts with the sink error exactly when the failing write index falls within
the write sequence. -/
def renderErr (sink : Sink) (m : AdjMap) : Option Err :=
  match sink.failIdx with
  | none => none
  | some k => if k < (dotGraphWrites m).length then some sink.errVal else none

/-- Model of Run: nil start fails immediately; otherwise store the start
handler, execute run, and afterwards, when tracing, render the graph and
return the render error when rendering fails, else the run error. -/
def Run (fsm : FiniteStateMachine) (startState : Option Handler) :
    FiniteStateMachine × Option Err :=
  match startState with
  | none => (fsm, some errStartNotNil)
  | some _ =>
      let fsm1 := { fsm with start := startState }
      let res := run fsm1
      match res.1.dotFile with
      | some sink =>
          match renderErr sink res.1.adjacencyMap with
          | some e => (res.1, some e)
          | none => res
      | none => res

/-- Model of the path built by LogStateTransitionGraph: empty path defaults
to the current directory, a trailing slash is trimmed, and the fixed file
name and extension are appended. -/
def logFilePath (path : String) : String :=
  let path2 := if path = "" then "." else path
  trimSuffixStr path2 "/" ++ "/" ++ dotFileName ++ "." ++ dotFileExtension

/-- Model of LogStateTransitionGraph: os.Create is modeled by the create
argument (the file-system environment).  On failure the error is returned
and the machine is unchanged, so tracing stays disabled; on success the dot
file handle is stored, enabling tracing. -/
def LogStateTransitionGraph (create : String → Except Err Sink)
    (fsm : FiniteStateMachine) (path : String) : FiniteStateMachine × Option Err :=
  match create (logFilePath path) with
  | .error e => (fsm, some e)
  | .ok file => ({ fsm with dotFile := some file }, none)

/- ===== Model of the getFunctionName symbol-string processing ===== -/

/-- Model of strings.Split with a one-character separator, over rune lists. -/
def goSplit (sep : Char) : List Char → List (List Char)
  | [] => [[]]
  | c :: rest =>
      match goSplit sep rest with
      | [] => [[c]]
      | s :: ss => if c = sep then [] :: s :: ss else (c :: s) :: ss

/-- Model of the body of getFunctionName on the runtime symbol name: split
on the slash, take the last segment, split that on the dot and take the
element at index 1.  The Go code indexes unconditionally; the none result
models the index-out-of-range panic. -/
def getFunctionNameSym (packageFuncName : List Char) : Option (List Char) :=
  let funcSegments := goSplit '/' packageFuncName
  let funcName := funcSegments.getLastD []
  (goSplit '.' funcName)[1]?

/- ===== Derived observations used by the claims ===== -/

/-- All recorded (source, destination, step list) triples, in enumeration
order. -/
def edges (m : AdjMap) : List (String × String × List Int) :=
  m.flatMap (fun ve => ve.2.map (fun es => (ve.1, es.1, es.2)))

/-- The step list recorded for one directed edge (empty when absent). -/
def stepsOn (m : AdjMap) (v e : String) : List Int :=
  (lookupA e ((lookupA v m).getD [])).getD []

def innerSteps (em : List (String × List Int)) : List Int :=
  em.flatMap (fun es => es.2)

/-- Every recorded step number, over all edges. -/
def allSteps (m : AdjMap) : List Int :=
  m.flatMap (fun ve => innerSteps ve.2)

/-- Total number of recorded transitions in a history. -/
def totalSteps (m : AdjMap) : Nat :=
  (allSteps m).length

/-- The list [1, 2, ..., n] of step numbers. -/
def intRange (n : Int) : List Int :=
  (List.range n.toNat).map (fun (i : Nat) => ((i : Int) + 1))

/-- Comma join with no trailing comma, as the specification words it. -/
def commaJoin : List String → String
  | [] => ""
  | [s] => s
  | s :: r :: rest => s ++ "," ++ commaJoin (r :: rest)

/-- Edge line format as the specification words it. -/
def specEdgeLine (v e : String) (steps : List Int) : String :=
  "\t" ++ v ++ " -> " ++ e ++ " [label=\" " ++
    commaJoin (steps.map (fun s => toString s)) ++ "\",fontsize=10]\n"

/-- The (source, destination) transitions the loop records for a given
current handler, in order. -/
def traceOf : Handler → List (String × String)
  | .last nm _ => [(nm, endID)]
  | .cont nm (some _) nx => [(nm, nx.name)]
  | .cont nm none nx => (nm, nx.name) :: traceOf nx

/-- The first non-nil error a run starting at the handler encounters. -/
def firstErr : Handler → Option Err
  | .last _ e => e
  | .cont _ (some e) _ => some e
  | .cont _ none nx => firstErr nx

/-- Record a list of transitions in order. -/
def recordAll (fsm : FiniteStateMachine) (ts : List (String × String)) :
    FiniteStateMachine :=
  ts.foldl (fun f t => recordStateTransition f t.1 t.2) fsm

/-- Length of the handler chain. -/
def spineLen : Handler → Nat
  | .last _ _ => 1
  | .cont _ _ nx => spineLen nx + 1

/-- Every handler on the chain returns a nil error. -/
def clean : Handler → Bool
  | .last _ e => e.isNone
  | .cont _ e nx => e.isNone && clean nx

/-- Name of the final handler on the chain. -/
def lastNameOf : Handler → String
  | .last nm _ => nm
  | .cont _ _ nx => lastNameOf nx

/-- Number of handler invocations the loop performs: it stops invoking as
soon as a handler returns a non-nil error, even when that handler also
returned a non-nil next handler. -/
def invocations : Handler → Nat
  | .last _ _ => 1
  | .cont _ (some _) _ => 1
  | .cont _ none nx => invocations nx + 1

/-- Number of handlers invoked before the first failing one. -/
def failPos : Handler → Nat
  | .last _ _ => 0
  | .cont _ (some _) _ => 0
  | .cont _ none nx => failPos nx + 1

/-- Every edge list is strictly increasing with entries between 1 and the
step counter. -/
def SortedB (m : AdjMap) (s : Int) : Prop :=
  ∀ t ∈ edges m, List.Chain' (· < ·) t.2.2 ∧ ∀ x ∈ t.2.2, 1 ≤ x ∧ x ≤ s

/-- Recording invariant: nonnegative counter, sorted bounded edge lists, and
the recorded steps are a permutation of 1..step. -/
def RecInv (fsm : FiniteStateMachine) : Prop :=
  0 ≤ fsm.step ∧ SortedB fsm.adjacencyMap fsm.step ∧
    List.Perm (allSteps fsm.adjacencyMap) (intRange fsm.step)

/- ===== Lemmas: association lists ===== -/

theorem lookupA_setA_self {α : Type} (k : String) (v : α) (m : List (String × α)) :
    lookupA k (setA k v m) = some v := by
  induction m with
  | nil => simp [setA, lookupA]
  | cons kv rest ih =>
      by_cases h : kv.1 = k
      · simp [setA, h, lookupA]
      · simp [setA, h, lookupA, ih]

theorem lookupA_setA_ne {α : Type} {k k2 : String} (v : α) (m : List (String × α))
    (h : k2 ≠ k) : lookupA k2 (setA k v m) = lookupA k2 m := by
  have hk : k ≠ k2 := Ne.symm h
  induction m with
  | nil => simp [setA, lookupA, hk]
  | cons kv rest ih =>
      by_cases hkv : kv.1 = k
      · simp [setA, lookupA, hkv, hk]
      · simp only [setA, hkv, if_false, lookupA]
        rw [ih]

theorem mem_setA {α : Type} {p : String × α} {k : String} {v : α}
    {m : List (String × α)} (h : p ∈ setA k v m) : p = (k, v) ∨ p ∈ m := by
  induction m with
  | nil => simpa [setA] using h
  | cons kv rest ih =>
      by_cases hk : kv.1 = k
      · simp only [setA, hk, if_true] at h
        rcases List.mem_cons.mp h with h1 | h1
        · exact Or.inl h1
        · exact Or.inr (List.mem_cons_of_mem _ h1)
      · simp only [setA, hk, if_false] at h
        rcases List.mem_cons.mp h with h1 | h1
        · exact Or.inr (h1 ▸ List.mem_cons_self _ _)
        · rcases ih h1 with h2 | h2
          · exact Or.inl h2
          · exact Or.inr (List.mem_cons_of_mem _ h2)

theorem lookupA_mem {α : Type} {k : String} {m : List (String × α)} {v : α}
    (h : lookupA k m = some v) : (k, v) ∈ m := by
  induction m with
  | nil => simp [lookupA] at h
  | cons kv rest ih =>
      by_cases hk : kv.1 = k
      · simp only [lookupA, hk, if_true, Option.some.injEq] at h
        subst hk; subst h
        exact List.mem_cons_self _ _
      · simp only [lookupA, hk, if_false] at h
        exact List.mem_cons_of_mem _ (ih h)

/- ===== Lemmas: recordStateTransition ===== -/

theorem record_not_tracing {fsm : FiniteStateMachine} (c n : String)
    (h : fsm.isTracing = false) : recordStateTransition fsm c n = fsm := by
  simp [recordStateTransition, h]

theorem record_eq {fsm : FiniteStateMachine} (c n : String)
    (h : fsm.isTracing = true) :
    recordStateTransition fsm c n =
      { fsm with
        step := fsm.step + 1,
        adjacencyMap :=
          setA c (setA n (stepsOn fsm.adjacencyMap c n ++ [fsm.step + 1])
            ((lookupA c fsm.adjacencyMap).getD [])) fsm.adjacencyMap } := by
  simp [recordStateTransition, h, stepsOn]

theorem record_dotFile (fsm : FiniteStateMachine) (c n : String) :
    (recordStateTransition fsm c n).dotFile = fsm.dotFile := by
  by_cases h : fsm.isTracing
  · rw [record_eq c n h]
  · rw [record_not_tracing c n (by simpa using h)]

theorem record_start (fsm : FiniteStateMachine) (c n : String) :
    (recordStateTransition fsm c n).start = fsm.start := by
  by_cases h : fsm.isTracing
  · rw [record_eq c n h]
  · rw [record_not_tracing c n (by simpa using h)]

theorem record_isTracing (fsm : FiniteStateMachine) (c n : String) :
    (recordStateTransition fsm c n).isTracing = fsm.isTracing := by
  simp [FiniteStateMachine.isTracing, record_dotFile]

theorem record_step {fsm : FiniteStateMachine} (c n : String)
    (h : fsm.isTracing = true) :
    (recordStateTransition fsm c n).step = fsm.step + 1 := by
  rw [record_eq c n h]

theorem stepsOn_record {fsm : FiniteStateMachine} (c n v e : String)
    (h : fsm.isTracing = true) :
    stepsOn (recordStateTransition fsm c n).adjacencyMap v e =
      if v = c ∧ e = n then stepsOn fsm.adjacencyMap c n ++ [fsm.step + 1]
      else stepsOn fsm.adjacencyMap v e := by
  rw [record_eq c n h]
  by_cases hv : v = c
  · subst hv
    by_cases he : e = n
    · subst he
      simp [stepsOn, lookupA_setA_self]
    · simp only [stepsOn, he, and_false, if_false, lookupA_setA_self, Option.getD_some]
      rw [lookupA_setA_ne _ _ he]
  · simp only [stepsOn, hv, false_and, if_false]
    rw [lookupA_setA_ne _ _ hv]

theorem stepsOn_record_mono {fsm : FiniteStateMachine} {c n v e : String} {y : Int}
    (h : y ∈ stepsOn fsm.adjacencyMap v e) :
    y ∈ stepsOn (recordStateTransition fsm c n).adjacencyMap v e := by
  by_cases ht : fsm.isTracing
  · rw [stepsOn_record c n v e ht]
    by_cases hc : v = c ∧ e = n
    · rw [if_pos hc]
      rcases hc with ⟨rfl, rfl⟩
      exact List.mem_append_left _ h
    · rwa [if_neg hc]
  · rwa [record_not_tracing c n (by simpa using ht)]

/- ===== Lemmas: step multiset bookkeeping ===== -/

theorem innerSteps_cons (es : String × List Int) (em : List (String × List Int)) :
    innerSteps (es :: em) = es.2 ++ innerSteps em := by
  simp [innerSteps]

theorem allSteps_cons (ve : String × List (String × List Int)) (m : AdjMap) :
    allSteps (ve :: m) = innerSteps ve.2 ++ allSteps m := by
  simp [allSteps]

theorem innerSteps_setA (em : List (String × List Int)) (n : String) (x : Int) :
    List.Perm (innerSteps (setA n (((lookupA n em).getD []) ++ [x]) em))
      (x :: innerSteps em) := by
  induction em with
  | nil => simp [setA, lookupA, innerSteps]
  | cons es rest ih =>
      by_cases h : es.1 = n
      · simp only [lookupA, h, if_true, Option.getD_some, setA, innerSteps_cons]
        rw [List.append_assoc]
        exact List.perm_middle
      · simp only [lookupA, h, if_false, setA, innerSteps_cons]
        exact List.Perm.trans (ih.append_left es.2) List.perm_middle

theorem allSteps_setA2 (m : AdjMap) (c n : String) (x : Int) :
    List.Perm
      (allSteps (setA c
        (setA n (((lookupA n ((lookupA c m).getD [])).getD []) ++ [x])
          ((lookupA c m).getD [])) m))
      (x :: allSteps m) := by
  induction m with
  | nil => simp [setA, lookupA, allSteps, innerSteps]
  | cons ve rest ih =>
      by_cases h : ve.1 = c
      · simp only [lookupA, h, if_true, Option.getD_some, setA, allSteps_cons]
        exact (innerSteps_setA ve.2 n x).append_right (allSteps rest)
      · simp only [lookupA, h, if_false, setA, allSteps_cons]
        exact List.Perm.trans (ih.append_left _) List.perm_middle

theorem allSteps_record {fsm : FiniteStateMachine} (c n : String)
    (h : fsm.isTracing = true) :
    List.Perm (allSteps (recordStateTransition fsm c n).adjacencyMap)
      ((fsm.step + 1) :: allSteps fsm.adjacencyMap) := by
  rw [record_eq c n h]
  exact allSteps_setA2 fsm.adjacencyMap c n (fsm.step + 1)

theorem totalSteps_record {fsm : FiniteStateMachine} (c n : String)
    (h : fsm.isTracing = true) :
    totalSteps (recordStateTransition fsm c n).adjacencyMap =
      totalSteps fsm.adjacencyMap + 1 := by
  have := (allSteps_record c n h).length_eq
  simpa [totalSteps, Nat.add_comm] using this

/- ===== Lemmas: edges of the history ===== -/

theorem mem_edges {m : AdjMap} {t : String × String × List Int} :
    t ∈ edges m ↔ ∃ ve ∈ m, ∃ es ∈ ve.2, t = (ve.1, es.1, es.2) := by
  simp only [edges, List.mem_flatMap, List.mem_map]
  constructor
  · rintro ⟨ve, hve, es, hes, rfl⟩
    exact ⟨ve, hve, es, hes, rfl⟩
  · rintro ⟨ve, hve, es, hes, rfl⟩
    exact ⟨ve, hve, es, hes, rfl⟩

theorem stepsOn_mem {m : AdjMap} {c n : String} (h : stepsOn m c n ≠ []) :
    (c, n, stepsOn m c n) ∈ edges m := by
  unfold stepsOn at *
  cases hc : lookupA c m with
  | none => simp [hc, lookupA] at h
  | some em =>
      cases hn : lookupA n em with
      | none => simp [hc, hn] at h
      | some steps =>
          rw [mem_edges]
          refine ⟨(c, em), lookupA_mem hc, (n, steps), lookupA_mem hn, ?_⟩
          simp [hc, hn]

theorem edges_record_sub {fsm : FiniteStateMachine} {c n : String}
    {t : String × String × List Int} (h : fsm.isTracing = true)
    (ht : t ∈ edges (recordStateTransition fsm c n).adjacencyMap) :
    t = (c, n, stepsOn fsm.adjacencyMap c n ++ [fsm.step + 1]) ∨
      t ∈ edges fsm.adjacencyMap := by
  rw [record_eq c n h] at ht
  rcases mem_edges.mp ht with ⟨ve, hve, es, hes, rfl⟩
  rcases mem_setA hve with hv | hv
  · subst hv
    rcases mem_setA hes with he | he
    · subst he
      exact Or.inl rfl
    · cases hc : lookupA c fsm.adjacencyMap with
      | none => simp [hc] at he
      | some em0 =>
          simp only [hc, Option.getD_some] at he
          exact Or.inr (mem_edges.mpr ⟨(c, em0), lookupA_mem hc, es, he, rfl⟩)
  · exact Or.inr (mem_edges.mpr ⟨ve, hv, es, hes, rfl⟩)

/- ===== Lemmas: recordAll ===== -/

theorem recordAll_cons (fsm : FiniteStateMachine) (t : String × String)
    (ts : List (String × String)) :
    recordAll fsm (t :: ts) = recordAll (recordStateTransition fsm t.1 t.2) ts := by
  simp [recordAll]

theorem recordAll_append_singleton (fsm : FiniteStateMachine)
    (ts : List (String × String)) (t : String × String) :
    recordAll fsm (ts ++ [t]) =
      recordStateTransition (recordAll fsm ts) t.1 t.2 := by
  simp [recordAll]

theorem recordAll_dotFile (ts : List (String × String)) (fsm : FiniteStateMachine) :
    (recordAll fsm ts).dotFile = fsm.dotFile := by
  induction ts generalizing fsm with
  | nil => rfl
  | cons t ts ih => rw [recordAll_cons, ih, record_dotFile]

theorem recordAll_start (ts : List (String × String)) (fsm : FiniteStateMachine) :
    (recordAll fsm ts).start = fsm.start := by
  induction ts generalizing fsm with
  | nil => rfl
  | cons t ts ih => rw [recordAll_cons, ih, record_start]

theorem recordAll_isTracing (ts : List (String × String)) (fsm : FiniteStateMachine) :
    (recordAll fsm ts).isTracing = fsm.isTracing := by
  simp [FiniteStateMachine.isTracing, recordAll_dotFile]

theorem recordAll_step (ts : List (String × String)) (fsm : FiniteStateMachine)
    (h : fsm.isTracing = true) :
    (recordAll fsm ts).step = fsm.step + ts.length := by
  induction ts generalizing fsm with
  | nil => simp [recordAll]
  | cons t ts ih =>
      rw [recordAll_cons, ih _ (by rw [record_isTracing]; exact h),
        record_step _ _ h]
      simp only [List.length_cons]
      push_cast
      ring

theorem recordAll_totalSteps (ts : List (String × String)) (fsm : FiniteStateMachine)
    (h : fsm.isTracing = true) :
    totalSteps (recordAll fsm ts).adjacencyMap =
      totalSteps fsm.adjacencyMap + ts.length := by
  induction ts generalizing fsm with
  | nil => simp [recordAll]
  | cons t ts ih =>
      rw [recordAll_cons, ih _ (by rw [record_isTracing]; exact h),
        totalSteps_record _ _ h]
      simp only [List.length_cons]
      omega

theorem recordAll_stepsOn_mono (ts : List (String × String))
    {fsm : FiniteStateMachine} {v e : String} {y : Int}
    (h : y ∈ stepsOn fsm.adjacencyMap v e) :
    y ∈ stepsOn (recordAll fsm ts).adjacencyMap v e := by
  induction ts generalizing fsm with
  | nil => exact h
  | cons t ts ih => rw [recordAll_cons]; exact ih (stepsOn_record_mono h)

/- ===== Lemmas: the run loop as a recorded trace ===== -/

theorem runLoop_eq (h : Handler) (fsm : FiniteStateMachine) :
    runLoop h fsm = (recordAll fsm (traceOf h), firstErr h) := by
  induction h generalizing fsm with
  | last nm e => simp [runLoop, traceOf, firstErr, recordAll, getFunctionName]
  | cont nm e nx ih =>
      cases e with
      | some er => simp [runLoop, traceOf, firstErr, recordAll, getFunctionName]
      | none =>
          simp only [runLoop, traceOf, firstErr, getFunctionName, recordAll_cons]
          exact ih _

theorem run_eq {fsm : FiniteStateMachine} {h : Handler} (hs : fsm.start = some h) :
    run fsm = (recordAll fsm ((startID, h.name) :: traceOf h), firstErr h) := by
  simp only [run, hs, getFunctionName, recordAll_cons]
  exact runLoop_eq h _

theorem run_dotFile (fsm : FiniteStateMachine) :
    (run fsm).1.dotFile = fsm.dotFile := by
  cases hs : fsm.start with
  | none => simp [run, hs, record_dotFile]
  | some h => rw [run_eq hs]; exact recordAll_dotFile _ _

/- ===== Lemmas: Run in terms of run and renderErr ===== -/

theorem Run_fst (fsm : FiniteStateMachine) (h : Handler) :
    (Run fsm (some h)).1 = (run { fsm with start := some h }).1 := by
  unfold Run
  cases hdf : (run { fsm with start := some h }).1.dotFile with
  | none => simp [hdf]
  | some sink =>
      cases hre : renderErr sink (run { fsm with start := some h }).1.adjacencyMap with
      | none => simp [hdf, hre]
      | some e => simp [hdf, hre]

theorem Run_snd_untraced (fsm : FiniteStateMachine) (h : Handler)
    (hd : fsm.dotFile = none) :
    (Run fsm (some h)).2 = (run { fsm with start := some h }).2 := by
  have hdf : (run { fsm with start := some h }).1.dotFile = none := by
    rw [run_dotFile]; exact hd
  unfold Run
  simp [hdf]

theorem Run_snd_renderFail (fsm : FiniteStateMachine) (h : Handler) (sink : Sink)
    (hd : fsm.dotFile = some sink) {w : Err}
    (hre : renderErr sink ((run { fsm with start := some h }).1.adjacencyMap) = some w) :
    (Run fsm (some h)).2 = some w := by
  have hdf : (run { fsm with start := some h }).1.dotFile = some sink := by
    rw [run_dotFile]; exact hd
  unfold Run
  simp [hdf, hre]

theorem Run_snd_renderOk (fsm : FiniteStateMachine) (h : Handler) (sink : Sink)
    (hd : fsm.dotFile = some sink)
    (hre : renderErr sink ((run { fsm with start := some h }).1.adjacencyMap) = none) :
    (Run fsm (some h)).2 = (run { fsm with start := some h }).2 := by
  have hdf : (run { fsm with start := some h }).1.dotFile = some sink := by
    rw [run_dotFile]; exact hd
  unfold Run
  simp [hdf, hre]

/- ===== Lemmas: clean handler chains ===== -/

theorem clean_firstErr {h : Handler} (hc : clean h = true) : firstErr h = none := by
  induction h with
  | last nm e => cases e <;> simp_all [clean, firstErr]
  | cont nm e nx ih => cases e <;> simp_all [clean, firstErr]

theorem traceOf_clean_decomp {h : Handler} (hc : clean h = true) :
    ∃ ts, traceOf h = ts ++ [(lastNameOf h, endID)] ∧ ts.length + 1 = spineLen h := by
  induction h with
  | last nm e => exact ⟨[], by simp [traceOf, lastNameOf], by simp [spineLen]⟩
  | cont nm e nx ih =>
      cases e with
      | some er => simp [clean] at hc
      | none =>
          have hcx : clean nx = true := by simpa [clean] using hc
          obtain ⟨ts, hts, hlen⟩ := ih hcx
          refine ⟨(nm, nx.name) :: ts, ?_, ?_⟩
          · simp [traceOf, lastNameOf, hts]
          · simp [spineLen, ← hlen, List.length_cons]

/- ===== Claim C1 ===== -/

/-- Claim C1: for every handler chain of length n whose handlers all return
nil outcomes and whose last handler returns a nil next handler, running a
fresh tracing machine records exactly n+1 transitions (the synthetic start
edge carrying step 1 plus n real edges, the final one pointing to endID and
carrying step n+1), and the step counter ends at exactly n+1. -/
theorem claim_c1_history_count (h : Handler) (sink : Sink) (hc : clean h = true) :
    totalSteps ((Run (freshTraced sink) (some h)).1.adjacencyMap) = spineLen h + 1 ∧
    (Run (freshTraced sink) (some h)).1.step = (spineLen h : Int) + 1 ∧
    (1 : Int) ∈ stepsOn ((Run (freshTraced sink) (some h)).1.adjacencyMap) startID h.name ∧
    ((spineLen h : Int) + 1) ∈
      stepsOn ((Run (freshTraced sink) (some h)).1.adjacencyMap) (lastNameOf h) endID := by
  have hM : ({ freshTraced sink with start := some h } : FiniteStateMachine)
      = ⟨some h, 0, some sink, []⟩ := rfl
  have hs : (⟨some h, 0, some sink, []⟩ : FiniteStateMachine).start = some h := rfl
  have htr : (⟨some h, 0, some sink, []⟩ : FiniteStateMachine).isTracing = true := rfl
  have hfst : (Run (freshTraced sink) (some h)).1
      = (run (⟨some h, 0, some sink, []⟩ : FiniteStateMachine)).1 := by
    rw [Run_fst _ h, hM]
  obtain ⟨ts, hts, hlen⟩ := traceOf_clean_decomp hc
  have htlen : (traceOf h).length = ts.length + 1 := by simp [hts]
  have hfull : (startID, h.name) :: traceOf h
      = ((startID, h.name) :: ts) ++ [(lastNameOf h, endID)] := by
    rw [hts]; rfl
  rw [hfst, run_eq hs]
  refine ⟨?_, ?_, ?_, ?_⟩
  · rw [recordAll_totalSteps _ _ htr]
    have h0 : totalSteps (⟨some h, 0, some sink, []⟩ :
        FiniteStateMachine).adjacencyMap = 0 := rfl
    rw [h0]
    simp only [List.length_cons, htlen]
    omega
  · rw [recordAll_step _ _ htr]
    simp only [List.length_cons, htlen]
    push_cast
    omega
  · rw [recordAll_cons]
    refine recordAll_stepsOn_mono _ ?_
    rw [stepsOn_record _ _ _ _ htr]
    simp [stepsOn, lookupA]
  · rw [hfull, recordAll_append_singleton]
    have htr2 : (recordAll (⟨some h, 0, some sink, []⟩ : FiniteStateMachine)
        ((startID, h.name) :: ts)).isTracing = true := by
      rw [recordAll_isTracing]
      exact htr
    have hstep2 : (recordAll (⟨some h, 0, some sink, []⟩ : FiniteStateMachine)
        ((startID, h.name) :: ts)).step = (spineLen h : Int) := by
      rw [recordAll_step _ _ htr]
      simp only [List.length_cons, ← hlen]
      push_cast
      omega
    rw [stepsOn_record _ _ _ _ htr2]
    simp [hstep2]

/-- Witness for claim C1 at the concrete two-handler chain A then B. -/
theorem claim_c1_witness :
    clean (.cont "A" none (.last "B" none)) = true ∧
    totalSteps ((Run (freshTraced ⟨none, "w"⟩)
      (some (.cont "A" none (.last "B" none)))).1.adjacencyMap) = 3 ∧
    (3 : Int) ∈ stepsOn ((Run (freshTraced ⟨none, "w"⟩)
      (some (.cont "A" none (.last "B" none)))).1.adjacencyMap) "B" endID := by
  have h := claim_c1_history_count (.cont "A" none (.last "B" none)) ⟨none, "w"⟩ rfl
  exact ⟨rfl, h.1, h.2.2.2⟩

/- ===== Claim C6 ===== -/

/-- Claim C6: calling Run with a nil start handler returns the invalid
argument error immediately and leaves the whole machine, in particular the
history and the step counter, unchanged. -/
theorem claim_c6_runNil (fsm : FiniteStateMachine) :
    Run fsm none = (fsm, some errStartNotNil) ∧
    (Run fsm none).1.adjacencyMap = fsm.adjacencyMap ∧
    (Run fsm none).1.step = fsm.step :=
  ⟨rfl, rfl, rfl⟩

/- ===== Claim C2 ===== -/

theorem invocations_failPos {h : Handler} {e : Err} (hf : firstErr h = some e) :
    invocations h = failPos h + 1 := by
  induction h with
  | last nm ev => cases ev <;> simp_all [firstErr, invocations, failPos]
  | cont nm ev nx ih => cases ev <;> simp_all [firstErr, invocations, failPos]

/-- Claim C2 (amended): when a handler on the chain returns a non-nil error
e, the run loop stops with exactly e, the failing handler is the last one
invoked (even when it also returned a non-nil next handler), and Run itself
returns e provided tracing is off or the post-run rendering succeeds (a
failing render replaces the returned error, see claim C3). -/
theorem claim_c2_failFast (h : Handler) (e : Err) (fsm : FiniteStateMachine)
    (hf : firstErr h = some e) :
    (runLoop h fsm).2 = some e ∧
    invocations h = failPos h + 1 ∧
    (∀ nm nx, invocations (Handler.cont nm (some e) nx) = 1) ∧
    (fsm.dotFile = none → (Run fsm (some h)).2 = some e) ∧
    (∀ sink, fsm.dotFile = some sink →
      renderErr sink ((run { fsm with start := some h }).1.adjacencyMap) = none →
      (Run fsm (some h)).2 = some e) := by
  refine ⟨?_, invocations_failPos hf, fun nm nx => rfl, ?_, ?_⟩
  · rw [runLoop_eq]
    simpa using hf
  · intro hd
    rw [Run_snd_untraced fsm h hd]
    have hs : ({ fsm with start := some h } : FiniteStateMachine).start = some h := rfl
    rw [run_eq hs]
    simpa using hf
  · intro sink hd hre
    rw [Run_snd_renderOk fsm h sink hd hre]
    have hs : ({ fsm with start := some h } : FiniteStateMachine).start = some h := rfl
    rw [run_eq hs]
    simpa using hf

/-- Counterexample to claim C2 as stated: a handler returns the error herr,
yet Run (on a tracing machine whose sink fails to accept the first write)
returns the render error werr instead of that exact outcome. -/
theorem claim_c2_counterexample :
    firstErr (.last "A" (some "herr")) = some "herr" ∧
    (Run (freshTraced ⟨some 0, "werr"⟩) (some (.last "A" (some "herr")))).2
      = some "werr" ∧
    (some "werr" : Option Err) ≠ some "herr" :=
  ⟨rfl, rfl, by decide⟩

/-- Witness for the amended claim C2: the failing handler A has a non-nil
next handler B, yet only one handler is invoked and Run (untraced) returns
exactly herr. -/
theorem claim_c2_witness :
    firstErr (.cont "A" (some "herr") (.last "B" none)) = some "herr" ∧
    (Run NewMachine (some (.cont "A" (some "herr") (.last "B" none)))).2
      = some "herr" ∧
    invocations (.cont "A" (some "herr") (.last "B" none)) = 1 := by
  have h := claim_c2_failFast (.cont "A" (some "herr") (.last "B" none)) "herr"
    NewMachine rfl
  exact ⟨rfl, h.2.2.2.1 rfl, h.2.1⟩

/- ===== Claim C3 ===== -/

/-- Claim C3 (amended): rendering is attempted after the run regardless of
the run outcome, and when rendering fails its error is what Run returns,
masking a handler failure when both occur; the run outcome is returned only
when rendering succeeds. -/
theorem claim_c3_renderMasks (fsm : FiniteStateMachine) (h : Handler) (sink : Sink)
    (hd : fsm.dotFile = some sink) :
    (∀ w, renderErr sink ((run { fsm with start := some h }).1.adjacencyMap) = some w →
      (Run fsm (some h)).2 = some w) ∧
    (renderErr sink ((run { fsm with start := some h }).1.adjacencyMap) = none →
      (Run fsm (some h)).2 = (run { fsm with start := some h }).2) :=
  ⟨fun _ hre => Run_snd_renderFail fsm h sink hd hre,
    fun hre => Run_snd_renderOk fsm h sink hd hre⟩

/-- Counterexample to claim C3 as stated: a handler failure and a render
failure occur in the same Run invocation, and Run returns the render error,
not the failure that occurred first in sequence. -/
theorem claim_c3_counterexample :
    firstErr (.last "H" (some "handlerboom")) = some "handlerboom" ∧
    (Run (freshTraced ⟨some 0, "diskfull"⟩) (some (.last "H" (some "handlerboom")))).2
      = some "diskfull" ∧
    (some "diskfull" : Option Err) ≠ some "handlerboom" :=
  ⟨rfl, rfl, by decide⟩

/-- Witness for the amended claim C3: with a sink whose failing write index
lies beyond the write sequence, rendering succeeds and the handler error is
returned. -/
theorem claim_c3_witness :
    (Run (freshTraced ⟨some 9, "w"⟩) (some (.last "A" (some "herr")))).2
      = some "herr" := by
  have h := claim_c3_renderMasks (freshTraced ⟨some 9, "w"⟩)
    (.last "A" (some "herr")) ⟨some 9, "w"⟩ rfl
  have hre : renderErr ⟨some 9, "w"⟩
      ((run { freshTraced ⟨some 9, "w"⟩ with
        start := some (.last "A" (some "herr")) }).1.adjacencyMap) = none := rfl
  rw [h.2 hre]
  rfl

/- ===== Claim C4 ===== -/

/-- Claim C4: RecordTransition is a no-op when tracing was never enabled;
when enabled it increments the step counter by exactly one, makes the source
key and the destination sub-key present, appends the new counter value to
that edge list, and changes no other vertex entry or edge entry. -/
theorem claim_c4_recordTransition (fsm : FiniteStateMachine) (curr next : String) :
    (fsm.isTracing = false → recordStateTransition fsm curr next = fsm) ∧
    (fsm.isTracing = true →
      (recordStateTransition fsm curr next).step = fsm.step + 1 ∧
      stepsOn (recordStateTransition fsm curr next).adjacencyMap curr next
        = stepsOn fsm.adjacencyMap curr next ++ [fsm.step + 1] ∧
      (lookupA curr (recordStateTransition fsm curr next).adjacencyMap).isSome = true ∧
      (lookupA next ((lookupA curr
        (recordStateTransition fsm curr next).adjacencyMap).getD [])).isSome = true ∧
      (∀ v, v ≠ curr →
        lookupA v (recordStateTransition fsm curr next).adjacencyMap
          = lookupA v fsm.adjacencyMap) ∧
      (∀ e, e ≠ next →
        lookupA e ((lookupA curr
          (recordStateTransition fsm curr next).adjacencyMap).getD [])
          = lookupA e ((lookupA curr fsm.adjacencyMap).getD []))) := by
  refine ⟨fun hf => record_not_tracing _ _ hf, fun ht => ?_⟩
  refine ⟨record_step _ _ ht, ?_, ?_, ?_, ?_, ?_⟩
  · rw [stepsOn_record _ _ _ _ ht]
    simp
  · rw [record_eq _ _ ht]
    simp [lookupA_setA_self]
  · rw [record_eq _ _ ht]
    simp [lookupA_setA_self]
  · intro v hv
    rw [record_eq _ _ ht]
    exact lookupA_setA_ne _ _ hv
  · intro e he
    rw [record_eq _ _ ht]
    simp only [lookupA_setA_self, Option.getD_some]
    exact lookupA_setA_ne _ _ he

/-- Witness for claim C4: the untraced fresh machine is unchanged, and on a
traced machine the counter becomes 1 and the edge list becomes [1]. -/
theorem claim_c4_witness :
    recordStateTransition NewMachine "a" "b" = NewMachine ∧
    (recordStateTransition (freshTraced ⟨none, "w"⟩) "a" "b").step = 1 ∧
    stepsOn (recordStateTransition (freshTraced ⟨none, "w"⟩) "a" "b").adjacencyMap
      "a" "b" = [1] := by
  have h := claim_c4_recordTransition (freshTraced ⟨none, "w"⟩) "a" "b"
  exact ⟨(claim_c4_recordTransition NewMachine "a" "b").1 rfl,
    (h.2 rfl).1, (h.2 rfl).2.1⟩

/- ===== Claim C5 ===== -/

theorem intRange_succ {s : Int} (hs : 0 ≤ s) :
    intRange (s + 1) = intRange s ++ [s + 1] := by
  unfold intRange
  have h1 : (s + 1).toNat = s.toNat + 1 := by omega
  have h2 : ((s.toNat : Int)) + 1 = s + 1 := by omega
  simp only [h1, List.range_succ, List.map_append, List.map_cons, List.map_nil]
  rw [h2]

theorem record_RecInv {fsm : FiniteStateMachine} (c n : String)
    (hI : RecInv fsm) : RecInv (recordStateTransition fsm c n) := by
  by_cases ht : fsm.isTracing
  · obtain ⟨h0, hS, hP⟩ := hI
    have hbound : ∀ x ∈ stepsOn fsm.adjacencyMap c n, 1 ≤ x ∧ x ≤ fsm.step := by
      intro x hx
      have hne : stepsOn fsm.adjacencyMap c n ≠ [] := by
        intro hemp
        rw [hemp] at hx
        simp at hx
      exact (hS _ (stepsOn_mem hne)).2 x hx
    have hch : List.Chain' (· < ·) (stepsOn fsm.adjacencyMap c n) := by
      rcases em : stepsOn fsm.adjacencyMap c n with _ | ⟨a, l⟩
      · simp
      · have hne : stepsOn fsm.adjacencyMap c n ≠ [] := by rw [em]; simp
        have := (hS _ (stepsOn_mem hne)).1
        rwa [em] at this
    refine ⟨?_, ?_, ?_⟩
    · rw [record_step c n ht]
      omega
    · rw [record_step c n ht]
      intro t htm
      rcases edges_record_sub ht htm with rfl | hm
      · constructor
        · rw [List.chain'_append]
          refine ⟨hch, List.chain'_singleton _, ?_⟩
          intro x hx y hy
          simp only [List.head?_cons, Option.mem_def, Option.some.injEq] at hy
          subst hy
          have hx2 := hbound x (List.mem_of_mem_getLast? hx)
          omega
        · intro x hx
          rcases List.mem_append.mp hx with hx1 | hx1
          · have := hbound x hx1
            omega
          · simp only [List.mem_singleton] at hx1
            omega
      · obtain ⟨hc1, hb1⟩ := hS t hm
        refine ⟨hc1, fun x hx => ?_⟩
        have := hb1 x hx
        omega
    · rw [record_step c n ht, intRange_succ h0]
      exact ((allSteps_record c n ht).trans (hP.cons _)).trans
        (List.perm_append_singleton _ _).symm
  · rw [record_not_tracing c n (by simpa using ht)]
    exact hI

theorem recordAll_RecInv (ts : List (String × String)) (fsm : FiniteStateMachine)
    (hI : RecInv fsm) : RecInv (recordAll fsm ts) := by
  induction ts generalizing fsm with
  | nil => exact hI
  | cons t ts ih => rw [recordAll_cons]; exact ih _ (record_RecInv _ _ hI)

/-- Claim C5: for every run on a fresh tracing machine, the step numbers on
each single edge are strictly increasing, and the recorded step numbers over
all edges form exactly the contiguous range 1..totalTransitions with no
repeats (a permutation of intRange of the final counter, whose length is the
total number of recorded transitions). -/
theorem claim_c5_stepNumbers (h : Handler) (sink : Sink) :
    (∀ t ∈ edges ((Run (freshTraced sink) (some h)).1.adjacencyMap),
      List.Chain' (· < ·) t.2.2) ∧
    List.Perm (allSteps ((Run (freshTraced sink) (some h)).1.adjacencyMap))
      (intRange ((Run (freshTraced sink) (some h)).1.step)) ∧
    totalSteps ((Run (freshTraced sink) (some h)).1.adjacencyMap)
      = ((Run (freshTraced sink) (some h)).1.step).toNat := by
  have hM : ({ freshTraced sink with start := some h } : FiniteStateMachine)
      = ⟨some h, 0, some sink, []⟩ := rfl
  have hs : (⟨some h, 0, some sink, []⟩ : FiniteStateMachine).start = some h := rfl
  have hfst : (Run (freshTraced sink) (some h)).1
      = (run (⟨some h, 0, some sink, []⟩ : FiniteStateMachine)).1 := by
    rw [Run_fst _ h, hM]
  have hI0 : RecInv (⟨some h, 0, some sink, []⟩ : FiniteStateMachine) := by
    refine ⟨le_refl 0, ?_, ?_⟩
    · intro t htm
      simp [edges] at htm
    · simp [allSteps, intRange]
  rw [hfst, run_eq hs]
  have hI := recordAll_RecInv ((startID, h.name) :: traceOf h) _ hI0
  refine ⟨fun t htm => (hI.2.1 t htm).1, hI.2.2, ?_⟩
  have hlen := hI.2.2.length_eq
  have hint : ∀ s : Int, (intRange s).length = s.toNat := fun s => by
    simp [intRange]
  rw [totalSteps, hlen, hint]

/- ===== Lemmas: strings ===== -/

theorem strData_append (a b : String) : (a ++ b).data = a.data ++ b.data := by
  cases a
  cases b
  rfl

theorem strExt {a b : String} (h : a.data = b.data) : a = b := by
  cases a
  cases b
  exact congrArg String.mk h

theorem strMk_data (s : String) : String.mk s.data = s := by
  cases s
  rfl

theorem trimSuffixStr_eq_of_data {s suf : String} {D : List Char}
    (h : s.data = D ++ suf.data) : trimSuffixStr s suf = String.mk D := by
  unfold trimSuffixStr
  have hsuf : suf.data.isSuffixOf s.data = true := by
    rw [h]
    simp [List.isSuffixOf_iff_suffix]
  simp only [hsuf, if_true]
  apply congrArg String.mk
  rw [h]
  simp [List.take_left]

theorem foldl_comma_data (steps : List Int) (acc : String) :
    (steps.foldl (fun a st => a ++ (toString st ++ ",")) acc).data
      = acc.data ++ (steps.map (fun st => (toString st).data ++ [','])).flatten := by
  induction steps generalizing acc with
  | nil => simp
  | cons s rest ih =>
      rw [List.foldl_cons, ih]
      simp [strData_append, List.append_assoc]

theorem commaJoin_data_append (l : List String) (hl : l ≠ []) :
    (l.map (fun x => x.data ++ [','])).flatten = (commaJoin l).data ++ [','] := by
  induction l with
  | nil => contradiction
  | cons a rest ih =>
      cases rest with
      | nil => simp [commaJoin]
      | cons b t =>
          rw [List.map_cons, List.flatten_cons, ih (by simp)]
          simp [commaJoin, strData_append, List.append_assoc]

theorem joinInt_comma (steps : List Int) :
    joinInt steps "," = commaJoin (steps.map (fun s => toString s)) := by
  cases steps with
  | nil => rfl
  | cons s rest =>
      unfold joinInt
      have hd := foldl_comma_data (s :: rest) ""
      have hcj := commaJoin_data_append ((s :: rest).map (fun st => toString st))
        (by simp)
      rw [List.map_map] at hcj
      have hcj2 : (List.map (fun st => (toString st).data ++ [',']) (s :: rest)).flatten
          = (commaJoin (List.map (fun st => toString st) (s :: rest))).data ++ [','] := hcj
      have hdata : ((s :: rest).foldl (fun a st => a ++ (toString st ++ ",")) "").data
          = (commaJoin ((s :: rest).map (fun st => toString st))).data
            ++ ("," : String).data := by
        rw [hd, hcj2]
        rfl
      rw [trimSuffixStr_eq_of_data hdata, strMk_data]

theorem edgeFmt_spec (v e : String) (steps : List Int) :
    edgeFmtLine v e (joinInt steps ",") = specEdgeLine v e steps := by
  rw [joinInt_comma]
  apply strExt
  simp only [edgeFmtLine, specEdgeLine, strData_append, List.append_assoc]
  have h10 : ("\",fontsize=" : String).data
      ++ ((toString stepFontSize).data ++ ("]\n" : String).data)
      = ("\",fontsize=10]\n" : String).data := by decide
  rw [h10]

/- ===== Claim C7 ===== -/

theorem dotLines_eq (m : AdjMap) :
    m.flatMap (fun ve => ve.2.map (fun es => edgeFmtLine ve.1 es.1 (joinInt es.2 ",")))
      = (edges m).map (fun t => specEdgeLine t.1 t.2.1 t.2.2) := by
  unfold edges
  rw [List.map_flatMap]
  congr 1
  funext ve
  rw [List.map_map]
  congr 1
  funext es
  exact edgeFmt_spec ve.1 es.1 es.2

/-- Claim C7: the rendered graph text is exactly the fixed header (declaring
a strict digraph named stategraph with the pre-styled start and end
vertices), then one line per recorded (source, destination) edge of the form
tab source arrow destination label, where the label is the comma join of
that edge step list with no trailing comma, then the fixed closing footer. -/
theorem claim_c7_renderFormat (m : AdjMap) :
    dotGraphWrites m
      = dotFileHeader ::
          (((edges m).map (fun t => specEdgeLine t.1 t.2.1 t.2.2)) ++ [dotFileFooter]) ∧
    (dotGraphWrites m).length = (edges m).length + 2 := by
  constructor
  · unfold dotGraphWrites
    rw [dotLines_eq]
    rfl
  · unfold dotGraphWrites
    rw [dotLines_eq]
    simp

/- ===== Claim C9 ===== -/

/-- Claim C9: rendering a fixed history is deterministic modulo the
enumeration order of the unordered edge maps: histories whose edge
enumerations are permutations of one another render to permutations of the
same write sequence, and the step label emitted for a given edge is the same
string in both renders and preserves recording order (it is the comma join
of that edge list in list order). -/
theorem claim_c9_renderStable (m1 m2 : AdjMap)
    (hp : List.Perm (edges m1) (edges m2)) :
    List.Perm (dotGraphWrites m1) (dotGraphWrites m2) ∧
    (∀ v e s, (v, e, s) ∈ edges m1 →
      edgeFmtLine v e (joinInt s ",") ∈ dotGraphWrites m1 ∧
      edgeFmtLine v e (joinInt s ",") ∈ dotGraphWrites m2 ∧
      joinInt s "," = commaJoin (s.map (fun x => toString x))) := by
  constructor
  · unfold dotGraphWrites
    rw [dotLines_eq, dotLines_eq]
    exact ((hp.map _).append_left [dotFileHeader]).append_right [dotFileFooter]
  · intro v e s hm
    have hm2 : (v, e, s) ∈ edges m2 := hp.mem_iff.mp hm
    have hline : ∀ m : AdjMap, (v, e, s) ∈ edges m →
        edgeFmtLine v e (joinInt s ",") ∈ dotGraphWrites m := by
      intro m hmem
      unfold dotGraphWrites
      rw [dotLines_eq]
      refine List.mem_append_left _ (List.mem_append_right _ ?_)
      rw [edgeFmt_spec]
      exact List.mem_map_of_mem _ hmem
    exact ⟨hline m1 hm, hline m2 hm2, joinInt_comma s⟩

/-- Witness for claim C9 at two enumerations of the same two-edge history. -/
theorem claim_c9_witness :
    List.Perm (edges [("a", [("b", [1]), ("c", [2])])])
      (edges [("a", [("c", [2]), ("b", [1])])]) ∧
    List.Perm (dotGraphWrites [("a", [("b", [1]), ("c", [2])])])
      (dotGraphWrites [("a", [("c", [2]), ("b", [1])])]) := by
  have hp : List.Perm (edges [("a", [("b", [1]), ("c", [2])])])
      (edges [("a", [("c", [2]), ("b", [1])])]) := by decide
  exact ⟨hp, (claim_c9_renderStable _ _ hp).1⟩

/- ===== Claim C8 ===== -/

theorem trimSuffix_append_slash (p : String) : trimSuffixStr (p ++ "/") "/" = p := by
  have h : (p ++ "/").data = p.data ++ ("/" : String).data := strData_append p "/"
  rw [trimSuffixStr_eq_of_data h, strMk_data]

theorem trimSuffixStr_noSuffix {s suf : String}
    (h : suf.data.isSuffixOf s.data = false) : trimSuffixStr s suf = s := by
  unfold trimSuffixStr
  rw [h]
  simp

theorem logFilePath_trailing (p : String) :
    logFilePath (p ++ "/") = p ++ "/dot_graph.gv" := by
  unfold logFilePath
  have hne : ¬(p ++ "/" = "") := by
    intro h0
    have h1 := congrArg String.data h0
    rw [strData_append] at h1
    simp at h1
  show trimSuffixStr (if p ++ "/" = "" then "." else p ++ "/") "/" ++ "/"
      ++ dotFileName ++ "." ++ dotFileExtension = p ++ "/dot_graph.gv"
  rw [if_neg hne, trimSuffix_append_slash]
  apply strExt
  simp only [strData_append, List.append_assoc]
  have hlit : ("/" : String).data ++ (dotFileName.data ++ (("." : String).data
      ++ dotFileExtension.data)) = ("/dot_graph.gv" : String).data := by decide
  rw [hlit]

theorem logFilePath_noslash (p : String) (h1 : ¬(p = ""))
    (h2 : (("/" : String).data).isSuffixOf p.data = false) :
    logFilePath p = p ++ "/dot_graph.gv" := by
  unfold logFilePath
  show trimSuffixStr (if p = "" then "." else p) "/" ++ "/"
      ++ dotFileName ++ "." ++ dotFileExtension = p ++ "/dot_graph.gv"
  rw [if_neg h1, trimSuffixStr_noSuffix h2]
  apply strExt
  simp only [strData_append, List.append_assoc]
  have hlit : ("/" : String).data ++ (dotFileName.data ++ (("." : String).data
      ++ dotFileExtension.data)) = ("/dot_graph.gv" : String).data := by decide
  rw [hlit]

/-- Claim C8: LogStateTransitionGraph builds its sink path as path slash
dot_graph.gv, trimming one trailing slash and defaulting an empty path to
the current directory; it returns an error exactly when sink creation fails,
in which case the machine (hence its disabled tracing) is unchanged, and on
success it stores the created sink. -/
theorem claim_c8_logGraph (create : String → Except Err Sink)
    (fsm : FiniteStateMachine) (p : String) :
    logFilePath "" = "./dot_graph.gv" ∧
    (¬(p = "") → (("/" : String).data).isSuffixOf p.data = false →
      logFilePath p = p ++ "/dot_graph.gv") ∧
    logFilePath (p ++ "/") = p ++ "/dot_graph.gv" ∧
    (∀ e, create (logFilePath p) = .error e →
      LogStateTransitionGraph create fsm p = (fsm, some e)) ∧
    (∀ f, create (logFilePath p) = .ok f →
      LogStateTransitionGraph create fsm p = ({ fsm with dotFile := some f }, none)) ∧
    ((LogStateTransitionGraph create fsm p).2.isSome = true ↔
      ∃ e, create (logFilePath p) = .error e) := by
  refine ⟨rfl, fun h1 h2 => logFilePath_noslash p h1 h2, logFilePath_trailing p,
    ?_, ?_, ?_⟩
  · intro e he
    unfold LogStateTransitionGraph
    rw [he]
  · intro f hf
    unfold LogStateTransitionGraph
    rw [hf]
  · unfold LogStateTransitionGraph
    cases hc : create (logFilePath p) with
    | error e => simp [hc]
    | ok f => simp [hc]

/-- Witness for claim C8 at concrete paths and a failing create. -/
theorem claim_c8_witness :
    logFilePath "" = "./dot_graph.gv" ∧
    logFilePath "dir" = "dir/dot_graph.gv" ∧
    logFilePath "dir/" = "dir/dot_graph.gv" ∧
    LogStateTransitionGraph (fun _ => .error "denied") NewMachine "dir"
      = (NewMachine, some "denied") := by
  have h := claim_c8_logGraph (fun _ => Except.error ("denied" : Err)) NewMachine "dir"
  exact ⟨h.1, h.2.1 (by decide) (by decide), h.2.2.1, h.2.2.2.1 "denied" rfl⟩

/- ===== Claim C10 ===== -/

theorem goSplit_ne_nil (sep : Char) (l : List Char) : goSplit sep l ≠ [] := by
  induction l with
  | nil => simp [goSplit]
  | cons c rest ih =>
      cases h : goSplit sep rest with
      | nil => exact absurd h ih
      | cons s ss => by_cases hc : c = sep <;> simp [goSplit, h, hc]

theorem goSplit_len_gt (sep : Char) (l : List Char) :
    1 < (goSplit sep l).length ↔ sep ∈ l := by
  induction l with
  | nil => simp [goSplit]
  | cons c rest ih =>
      cases h : goSplit sep rest with
      | nil => exact absurd h (goSplit_ne_nil sep rest)
      | cons s ss =>
          by_cases hc : c = sep
          · subst hc
            simp [goSplit, h]
          · simp only [goSplit, h, hc, if_false]
            have hih := ih
            rw [h] at hih
            simp only [List.length_cons] at hih ⊢
            rw [List.mem_cons]
            constructor
            · intro hlt
              exact Or.inr (hih.mp hlt)
            · rintro (he | hm)
              · exact absurd he.symm hc
              · exact hih.mpr hm

theorem isSome_getElemQ {β : Type} (l : List β) (i : Nat) :
    (l[i]?).isSome = true ↔ i < l.length := by
  constructor
  · intro h
    obtain ⟨v, hv⟩ := Option.isSome_iff_exists.mp h
    obtain ⟨h1, -⟩ := List.getElem?_eq_some.mp hv
    exact h1
  · intro h
    rw [List.getElem?_eq_getElem h]
    rfl

/-- Claim C10: getFunctionNameSym splits the symbol name on the slash, takes
the last segment, splits that on the dot and unconditionally returns the
element at index 1; that access is in range (so the Go code does not panic)
exactly when the last segment contains at least one dot, and whenever the
dot split has two or more segments the result is the second segment, not
the innermost one. -/
theorem claim_c10_functionName (s : List Char) :
    ((getFunctionNameSym s).isSome = true ↔ '.' ∈ (goSplit '/' s).getLastD []) ∧
    (∀ seg0 seg1 rest,
      goSplit '.' ((goSplit '/' s).getLastD []) = seg0 :: seg1 :: rest →
      getFunctionNameSym s = some seg1) := by
  constructor
  · unfold getFunctionNameSym
    rw [isSome_getElemQ, goSplit_len_gt]
  · intro seg0 seg1 rest hsp
    show (goSplit '.' ((goSplit '/' s).getLastD []))[1]? = some seg1
    rw [hsp]
    simp

/-- Witness for claim C10: for a symbol whose last slash segment has two
dots, the returned name is the second dot segment, which differs from the
innermost function name, and a dotless symbol yields the panic result. -/
theorem claim_c10_witness :
    getFunctionNameSym ("g.com/pkg.Out.fn1".data) = some ("Out".data) ∧
    ¬("Out".data = "fn1".data) ∧
    getFunctionNameSym ("nodots".data) = none := by
  refine ⟨?_, by decide, by decide⟩
  exact (claim_c10_functionName ("g.com/pkg.Out.fn1".data)).2
    ("pkg".data) ("Out".data) [("fn1".data)] (by decide)
